import Mathlib

/-!
Verification of the orchestration layer of the `minecraftagent` repository.

Shallow embedding of the Python source:

* `src/utils/a2a_utils.py`   — message codec (`parse_tags`), readiness polling
  (`wait_agent_ready`)
* `src/a2a_server.py`        — session registry (`init_task`, `execute_action`,
  `close_task`), task generation (`_generate_task_config`, `generate_task`,
  `_process_compositional_task_list`), score extraction in `evaluate_video`
* `src/green_agent/agent.py` — score extraction in `evaluate_video_with_vlm`
* `src/white_agent/hybrid_policy.py` — `HybridPolicy` subtask state machine

Strings are modelled as `List Char`; Python dicts as insertion-ordered
association lists (`pyDictSet` / `pyDictGet` below mirror `d[k] = v` and
`d.get(k)`); Python exceptions as `Except`; external services (simulator,
completion service, HTTP transport) as explicit parameters.
-/

namespace MCAgent

/-! ### Python string primitives -/

/-- Character class of the regex `\w` (ASCII fragment): letters, digits, `_`. -/
def isWordChar (c : Char) : Bool := c.isAlphanum || c == '_'

/-- Python `str.strip()` whitespace set. -/
def isPySpace (c : Char) : Bool :=
  c == ' ' || c == '\t' || c == '\n' || c == '\r' || c == '\x0b' || c == '\x0c'

/-- Python `str.strip()`: drop leading and trailing whitespace. -/
def pyStrip (l : List Char) : List Char :=
  ((l.dropWhile isPySpace).reverse.dropWhile isPySpace).reverse

/-- Python `str.strip(chars)`: drop leading and trailing characters that are
in the given set. -/
def pyStripSet (chars : List Char) (l : List Char) : List Char :=
  ((l.dropWhile (chars.contains ·)).reverse.dropWhile (chars.contains ·)).reverse

/-- Index of the first occurrence of `pat` as a contiguous sublist of `l`
(Python `str.find`, with `none` for `-1`). -/
def findSub (pat : List Char) : List Char → Option Nat
  | [] => if List.isPrefixOf pat [] then some 0 else none
  | c :: rest =>
    if List.isPrefixOf pat (c :: rest) then some 0
    else (findSub pat rest).map (· + 1)

/-- Python `pat in l` (substring containment). -/
def containsSub (pat l : List Char) : Bool := (findSub pat l).isSome

/-- Python `str.split(sep)` for a one-character separator. -/
def splitOnChar (sep : Char) : List Char → List (List Char)
  | [] => [[]]
  | c :: rest =>
    if c == sep then [] :: splitOnChar sep rest
    else
      match splitOnChar sep rest with
      | [] => [[c]]
      | h :: t => (c :: h) :: t

/-- Fuel-driven worker for `splitOnSub`; the fuel bounds the number of
separator occurrences, so `l.length` is always enough for a nonempty `sep`. -/
def splitOnSubAux (sep : List Char) : Nat → List Char → List (List Char)
  | 0, l => [l]
  | fuel + 1, l =>
    match findSub sep l with
    | none => [l]
    | some i => l.take i :: splitOnSubAux sep fuel (l.drop (i + sep.length))

/-- Python `str.split(sep)` for a nonempty multi-character separator. -/
def splitOnSub (sep l : List Char) : List (List Char) :=
  splitOnSubAux sep l.length l

/-- Value of a digit string (used below only on nonempty all-digit runs). -/
def digitsToNat (ds : List Char) : Nat :=
  ds.foldl (fun n c => n * 10 + (c.toNat - 48)) 0

/-- First match of the regex `\d+` in `l`, as a number: skip to the first
digit and read the maximal digit run (Python `re.findall(r'\d+', s)[0]`). -/
def firstIntToken (l : List Char) : Option Nat :=
  let rest := l.dropWhile (fun c => !c.isDigit)
  if rest.isEmpty then none
  else some (digitsToNat (rest.takeWhile Char.isDigit))

/-- Python `int(s)` on an already-stripped string: optional sign followed by a
nonempty digit run (numeric-literal underscores are not modelled). -/
def pyInt : List Char → Option Int
  | [] => none
  | '-' :: ds =>
    if ds ≠ [] && ds.all Char.isDigit then some (-(digitsToNat ds : Int)) else none
  | '+' :: ds =>
    if ds ≠ [] && ds.all Char.isDigit then some (digitsToNat ds : Int) else none
  | ds =>
    if ds.all Char.isDigit then some (digitsToNat ds : Int) else none

/-! ### Python dict as an insertion-ordered association list -/

/-- Python `k in d`. -/
def pyDictHas {κ α : Type} [DecidableEq κ] (d : List (κ × α)) (k : κ) : Bool :=
  d.any (fun p => p.1 == k)

/-- Python `d[k] = v`: overwrite in place if the key exists, append otherwise. -/
def pyDictSet {κ α : Type} [DecidableEq κ] (d : List (κ × α)) (k : κ) (v : α) :
    List (κ × α) :=
  if pyDictHas d k then d.map (fun p => if p.1 == k then (k, v) else p)
  else d ++ [(k, v)]

/-- Python `d.get(k)`. -/
def pyDictGet {κ α : Type} [DecidableEq κ] (d : List (κ × α)) (k : κ) : Option α :=
  (d.find? (fun p => p.1 == k)).map (·.2)

/-- Python `del d[k]` (on key-unique dicts). -/
def pyDictDel {κ α : Type} [DecidableEq κ] (d : List (κ × α)) (k : κ) :
    List (κ × α) :=
  d.filter (fun p => p.1 != k)

/-! ### Message codec — `parse_tags` (src/utils/a2a_utils.py, lines 103-119)

`parse_tags` runs `re.findall(r'<(\w+)>(.*?)</\1>', text, re.DOTALL)` and
builds a dict, last occurrence winning: `result[tag_name] = content.strip()`.

For this fixed pattern the `re` scan has a direct operational reading, which
`tagMatchAt` / `scanAux` embed: at each position, a match requires `<`, then a
nonempty maximal `\w+` run (greedy, and since `>` is not a word character no
shorter run can succeed), then `>`, and the lazy `(.*?)</\1>` selects the
earliest following closing tag; `findall` then resumes after the match, and on
failure the scan advances one character. -/

/-- The closing tag `</name>`. -/
def closerOf (name : List Char) : List Char := '<' :: '/' :: (name ++ ['>'])

/-- Attempt of the pattern `<(\w+)>(.*?)</\1>` at the head of the input.
Returns the tag name, the captured content, and the number of characters of
the input after the leading `<` consumed by the whole match. -/
def tagMatchAt : List Char → Option (List Char × List Char × Nat)
  | '<' :: rest =>
    let w := rest.takeWhile isWordChar
    let rest1 := rest.dropWhile isWordChar
    if w.isEmpty then none
    else
      match rest1 with
      | '>' :: rest2 =>
        match findSub (closerOf w) rest2 with
        | some k => some (w, rest2.take k, w.length + 1 + k + (closerOf w).length)
        | none => none
      | _ => none
  | _ => none

/-- Fuel-driven scan of all non-overlapping matches (`re.findall`); every
step consumes at least one character, so `l.length` fuel is always enough. -/
def scanAux : Nat → List Char → List (List Char × List Char)
  | 0, _ => []
  | _, [] => []
  | fuel + 1, c :: rest =>
    match tagMatchAt (c :: rest) with
    | some (w, content, used) => (w, content) :: scanAux fuel (rest.drop used)
    | none => scanAux fuel rest

/-- All matches of `<(\w+)>(.*?)</\1>` in the text, in order. -/
def scanTags (l : List Char) : List (List Char × List Char) := scanAux l.length l

/-- `parse_tags` on character lists: fold the matches into a dict, stripping
each payload; a repeated tag name keeps the last payload. -/
def parseTagsL (text : List Char) : List (List Char × List Char) :=
  (scanTags text).foldl (fun d m => pyDictSet d m.1 (pyStrip m.2)) []

/-- `parse_tags` (src/utils/a2a_utils.py line 103). -/
def parse_tags (text : String) : List (String × String) :=
  (parseTagsL text.toList).map (fun p => (p.1.asString, p.2.asString))

/-! ### Well-formed tagged texts (spec §3/§4.1 grammar)

A text "containing N well-formed top-level tag pairs" is modelled as an
optional gap, then N blocks `<name_i>payload_i</name_i>` each followed by a
gap, where each name is a nonempty word, each payload does not contain its own
closing tag (spec §3: flat, non-nested grammar), and gaps contain no `<`. -/

/-- One tag pair `\x7bname, payload\x7d` of the wire grammar. -/
structure TagPair where
  name : List Char
  payload : List Char
deriving DecidableEq

/-- Well-formedness of a pair: nonempty word-character name, and a payload
that never contains the pair's own closing tag. -/
def TagPair.wf (p : TagPair) : Prop :=
  p.name ≠ [] ∧ (∀ c ∈ p.name, isWordChar c = true) ∧
    findSub (closerOf p.name) p.payload = none

instance (p : TagPair) : Decidable p.wf := by
  unfold TagPair.wf; infer_instance

/-- `<name>payload</name>`. -/
def renderPair (p : TagPair) : List Char :=
  '<' :: (p.name ++ ('>' :: (p.payload ++ closerOf p.name)))

/-- A leading gap followed by tag pairs, each with its trailing gap. -/
def renderText : List Char → List (TagPair × List Char) → List Char
  | g, [] => g
  | g, (p, g') :: rest => g ++ (renderPair p ++ renderText g' rest)

/-! ### Session registry (src/a2a_server.py)

`active_simulations` is a dict keyed by `agent_id`.  The simulator handle and
its step results are external (spec §6), so they enter the model as explicit
parameters; the HTTP 404s raised on a missing session are `SessionNotFound`.
The source's `init_task` raises only for external failures (MineStudio or
config loading), never for an occupied `agent_id`. -/

/-- Error taxonomy of the registry endpoints (spec §7). -/
inductive ServerError where
  | SessionNotFound
  | AlreadyActive
deriving DecidableEq

/-- One entry of `active_simulations` (the stored dict of `init_task`,
src/a2a_server.py lines 636-645); `sim` abstracts the simulator handle. -/
structure Session where
  sim : Nat
  task_name : String
  difficulty : String
  record_dir : String
  episode : Nat
  task_id : Option String
deriving DecidableEq

/-- The registry `active_simulations`. -/
abbrev Registry := List (String × Session)

/-- Result payload of `init_task`. -/
structure InitResult where
  agent_id : String
  task_name : String
  task_id : Option String
  is_generated : Bool
deriving DecidableEq

/-- `init_task` (src/a2a_server.py lines 536-666), registry-level behavior:
defaults the agent id, builds the session record and stores it with plain
dict assignment — there is no check for an existing session, so an occupied
`agent_id` is silently overwritten.  External simulator/config failures are
the only raises in the source and are outside this model, hence the `.ok`. -/
def init_task (reg : Registry) (agent_id? : Option String)
    (task_name difficulty : String) (sim : Nat) (task_id : Option String) :
    Except ServerError (Registry × InitResult) :=
  let agent_id := agent_id?.getD ("agent_" ++ Nat.repr reg.length)
  let record_dir := "/tmp/mcu_recordings/" ++ agent_id
  let sess : Session :=
    { sim, task_name, difficulty, record_dir, episode := 0, task_id }
  .ok (pyDictSet reg agent_id sess,
    { agent_id, task_name, task_id, is_generated := task_id.isSome })

/-- `execute_action` (src/a2a_server.py lines 669-708): 404 when the agent id
has no session, otherwise delegate to `sim.step` and return its result
verbatim; `step` abstracts that external result.  The registry is not
mutated. -/
def execute_action {Obs : Type} (reg : Registry) (agent_id : String)
    (step : Obs) : Except ServerError Obs :=
  if pyDictHas reg agent_id then .ok step
  else .error .SessionNotFound

/-- Result payload of `close_task`. -/
structure CloseResult where
  agent_id : String
  video_files : List String
  record_dir : String
deriving DecidableEq

/-- `close_task` (src/a2a_server.py lines 749-791): 404 when absent;
otherwise close the simulator, list the recorded `.mp4` files (external —
passed in as `videos`), and delete the session from the registry. -/
def close_task (reg : Registry) (agent_id : String) (videos : List String) :
    Except ServerError (Registry × CloseResult) :=
  match pyDictGet reg agent_id with
  | none => .error .SessionNotFound
  | some sess =>
    .ok (pyDictDel reg agent_id,
      { agent_id, video_files := videos, record_dir := sess.record_dir })

/-! ### Task generation (src/a2a_server.py)

`_generate_task_config` parses the completion-service response by anchor
substrings; `generate_task` stores the parsed config in the process-wide
`generated_tasks` dict under a fresh uuid.  The completion-service response
`ans` and the fresh uuid are external inputs. -/

/-- Error of the generation parser (HTTP 500 in the source, spec's
`GenerationParseError`). -/
inductive GenError where
  | GenerationParseError
deriving DecidableEq

/-- The parsed task configuration dict built by `_generate_task_config`. -/
structure TaskConfig where
  text : List Char
  custom_init_commands : List (List Char)
  thinking : List Char
  name : List Char
  generated : Bool
  difficulty : List Char
  task_type : List Char
deriving DecidableEq

/-- Anchor for the command list: `'- custom_init_commands:\n  -'`. -/
def cmdMarker : List Char := "- custom_init_commands:\n  -".toList

/-- Anchor for the description: `'- Task description: '`. -/
def descMarker : List Char := "- Task description: ".toList

/-- Anchor for the rationale: `'- In order to'`. -/
def thinkMarker : List Char := "- In order to".toList

/-- Python `s.replace(' ', '_').lower()`. -/
def pyNameClean (l : List Char) : List Char :=
  (l.map (fun c => if c == ' ' then '_' else c)).map Char.toLower

/-- `_generate_task_config` (src/a2a_server.py lines 184-253), given the
completion-service response `ans`: fail if the command-list marker is absent;
otherwise slice from each marker, strip, split (`'\n  -'` for commands,
`'\n- '` to cut off the description and rationale) and assemble the config. -/
def generate_task_config (task_name ans : List Char)
    (difficulty task_type : List Char) : Except GenError TaskConfig :=
  match findSub cmdMarker ans with
  | none => .error .GenerationParseError
  | some start_index =>
    let cmds_text := pyStrip (ans.drop (start_index + cmdMarker.length))
    let commands :=
      ((splitOnSub "\n  -".toList cmds_text).map pyStrip).filter (· ≠ [])
    let task_description :=
      match findSub descMarker ans with
      | some i =>
        (splitOnSub "\n- ".toList
          (pyStrip (ans.drop (i + descMarker.length)))).headD []
      | none => task_name
    let thinking :=
      match findSub thinkMarker ans with
      | some i => (splitOnSub "\n- ".toList (pyStrip (ans.drop i))).headD []
      | none => []
    .ok { text := task_description, custom_init_commands := commands,
          thinking, name := pyNameClean task_name, generated := true,
          difficulty, task_type }

/-- The process-wide `generated_tasks` store. -/
abbrev TaskStore := List (String × TaskConfig)

/-- Result payload of the `/a2a/task/generate` endpoint. -/
structure GenResult where
  task_id : String
  task_name : List Char
  custom_init_commands : List (List Char)
deriving DecidableEq

/-- `generate_task` (src/a2a_server.py lines 421-462), after the task name
has been resolved (explicit or sampled upstream): parse the response via
`generate_task_config`; only on success mint `new_id` (the uuid, external)
and insert the config into the store.  A parse failure propagates before the
store is touched, so the store comes back unchanged. -/
def generate_task (store : TaskStore) (new_id : String)
    (task_name ans : List Char) (difficulty task_type : List Char) :
    TaskStore × Except GenError GenResult :=
  match generate_task_config task_name ans difficulty task_type with
  | .error e => (store, .error e)
  | .ok cfg =>
    (pyDictSet store new_id cfg,
     .ok { task_id := new_id, task_name := cfg.name,
           custom_init_commands := cfg.custom_init_commands })

/-! ### Compositional task names (src/a2a_server.py lines 284-298) -/

/-- `random.choice(l)` driven by an external random draw `n`. -/
def pyChoice (l : List (List Char)) (n : Nat) : List Char := l.getD (n % l.length) []

/-- The connector `' and '`. -/
def andConn : List Char := " and ".toList

/-- The connector `' or '`. -/
def orConn : List Char := " or ".toList

/-- `_process_compositional_task_list`: three names get two independently
drawn connectors from `\x7b' and ', ' or '\x7d`; two names get
`random.choice([' or '])`, which is always `' or '`; one name passes through;
an empty list raises `IndexError` (`none`).  `r1`, `r2` are the external
random draws. -/
def process_compositional_task_list (task_list : List (List Char))
    (r1 r2 : Nat) : Option (List Char) :=
  if task_list.length = 3 then
    some (task_list.getD 0 [] ++ pyChoice [andConn, orConn] r1 ++
          task_list.getD 1 [] ++ pyChoice [andConn, orConn] r2 ++
          task_list.getD 2 [])
  else if task_list.length = 2 then
    some (task_list.getD 0 [] ++ pyChoice [orConn] r1 ++ task_list.getD 1 [])
  else task_list.head?

/-! ### Hybrid policy subtask state machine (src/white_agent/hybrid_policy.py)

Only the plan-progress state touched by `get_action` is modelled; the VPT
action, observation handling and LLM calls are external. -/

/-- The plan-progress fields of `HybridPolicy` (constructor lines 207-220)
together with `StateManager.completed_subtasks` / `current_subtask`. -/
structure HybridPolicy where
  current_plan : Option (List (List Char))
  current_subtask_index : Nat
  steps_in_subtask : Nat
  max_steps_per_subtask : Nat
  completed_subtasks : List (List Char)
  current_subtask : Option (List Char)
deriving DecidableEq

/-- `StateManager.mark_subtask_complete` (lines 112-116): append if new. -/
def mark_subtask_complete (l : List (List Char)) (s : List Char) :
    List (List Char) :=
  if s ∈ l then l else l ++ [s]

/-- `HybridPolicy._should_move_to_next_subtask` (lines 289-300): `True` with
no plan, else move on once `steps_in_subtask >= max_steps_per_subtask`. -/
def should_move_to_next_subtask (p : HybridPolicy) : Bool :=
  match p.current_plan with
  | none => true
  | some _ => decide (p.max_steps_per_subtask ≤ p.steps_in_subtask)

/-- `HybridPolicy._advance_subtask` (lines 302-320): return early with no
plan or when the index has reached the end; otherwise mark the previous
subtask complete (when there is one), set the new current subtask, reset the
step counter and advance the index. -/
def advance_subtask (p : HybridPolicy) : HybridPolicy :=
  match p.current_plan with
  | none => p
  | some subtasks =>
    if subtasks.length ≤ p.current_subtask_index then p
    else
      let prev := subtasks.getD (p.current_subtask_index - 1) []
      let p1 :=
        if 0 < p.current_subtask_index then
          { p with completed_subtasks :=
              mark_subtask_complete p.completed_subtasks prev }
        else p
      if p1.current_subtask_index < subtasks.length then
        { p1 with
          current_subtask := some (subtasks.getD p1.current_subtask_index []),
          steps_in_subtask := 0,
          current_subtask_index := p1.current_subtask_index + 1 }
      else p1

/-- The plan-state update of one `HybridPolicy.get_action` call (lines
256-287): advance when there is no plan or the subtask is exhausted, then
count the control step. -/
def get_action_step (p : HybridPolicy) : HybridPolicy :=
  let p1 :=
    if p.current_plan.isNone || should_move_to_next_subtask p then
      advance_subtask p
    else p
  { p1 with steps_in_subtask := p1.steps_in_subtask + 1 }

/-! ### Readiness polling (src/utils/a2a_utils.py lines 37-60)

`wait_agent_ready` polls `get_agent_card` once per second; attempt `i`
(0-based) succeeding is modelled by `outcome i = true` (an exception or a
`None` card both count as a failed attempt and are retried). -/

/-- Loop body of `wait_agent_ready`: remaining fuel is `timeout - retry_cnt`;
returns the result and the number of attempts made. -/
def waitFrom (outcome : Nat → Bool) : Nat → Nat → Bool × Nat
  | 0, i => (false, i)
  | fuel + 1, i => if outcome i then (true, i + 1) else waitFrom outcome fuel (i + 1)

/-- `wait_agent_ready(url, timeout=30)`: up to `timeout` attempts at
1-second intervals; `True` at the first successful attempt, `False` once all
attempts have failed.  Returns (result, attempts made). -/
def wait_agent_ready (outcome : Nat → Bool) (timeout : Nat) : Bool × Nat :=
  waitFrom outcome timeout 0

/-! ### Score extraction

Two extractors exist in the source: the A2A server's `/a2a/evaluate` handler
(src/a2a_server.py lines 869-894) and the green agent's
`evaluate_video_with_vlm` (src/green_agent/agent.py lines 158-173). -/

/-- The six expected metric names (src/a2a_server.py lines 876-877). -/
def metricNames : List (List Char) :=
  ["Task Progress".toList, "Action Control".toList,
   "Error Recognition and Correction".toList, "Creative Attempts".toList,
   "Task Completion Efficiency".toList,
   "Material Selection and Usage".toList]

/-- Per-line extraction of one metric in `evaluate_video`: the line must
contain `'- metric:'` or `'metric:'`; split on `':'`, take the last part,
strip it, and read the first `\d+` token (`float(numbers[0])`, an integer
value). -/
def scoreLineValue (metric line : List Char) : Option Nat :=
  if containsSub (('-' :: ' ' :: metric) ++ [':']) line ||
      containsSub (metric ++ [':']) line then
    let parts := splitOnChar ':' line
    if 1 < parts.length then firstIntToken (pyStrip (parts.getLastD []))
    else none
  else none

/-- Score extraction of `evaluate_video` (src/a2a_server.py lines 869-894):
for every line and every expected metric, record the extracted value
(`scores[metric] = ...`, so a later line overwrites an earlier one); metrics
with no parsable line are simply absent. -/
def evaluate_video_scores (result : List Char) : List (List Char × Nat) :=
  (splitOnChar '\n' result).foldl
    (fun scores line =>
      metricNames.foldl
        (fun scores metric =>
          match scoreLineValue metric line with
          | some n => pyDictSet scores metric n
          | none => scores)
        scores)
    []

/-- Score extraction of `evaluate_video_with_vlm` (src/green_agent/agent.py
lines 158-173): on `result.strip().split('\n')`, keep lines starting with
`'- '` that split on `': '` into exactly two parts; the key is
`parts[0].strip('- ')`, and the value `parts[1].strip()` must parse as a bare
`int` — otherwise the line is skipped. -/
def evaluate_video_with_vlm_scores (result : List Char) :
    List (List Char × Int) :=
  (splitOnChar '\n' (pyStrip result)).foldl
    (fun scores line =>
      if List.isPrefixOf ['-', ' '] line then
        let parts := splitOnSub [':', ' '] line
        if parts.length = 2 then
          match pyInt (pyStrip (parts.getD 1 [])) with
          | some n => pyDictSet scores (pyStripSet ['-', ' '] (parts.headD [])) n
          | none => scores
        else scores
      else scores)
    []

/-! ## Lemmas about the dict model -/

theorem find?_key_pos {κ α : Type} [DecidableEq κ] (q : κ × α)
    (d : List (κ × α)) (k : κ) (h : q.1 = k) :
    List.find? (fun r => r.1 == k) (q :: d) = some q :=
  List.find?_cons_of_pos _ (by simpa using h)

theorem find?_key_neg {κ α : Type} [DecidableEq κ] (q : κ × α)
    (d : List (κ × α)) (k : κ) (h : ¬q.1 = k) :
    List.find? (fun r => r.1 == k) (q :: d) = List.find? (fun r => r.1 == k) d :=
  List.find?_cons_of_neg _ (by simpa using h)

theorem pyDictHas_false_iff {κ α : Type} [DecidableEq κ]
    (d : List (κ × α)) (k : κ) :
    pyDictHas d k = false ↔ pyDictGet d k = none := by
  induction d with
  | nil => simp [pyDictHas, pyDictGet]
  | cons p d ih =>
    by_cases h : p.1 = k
    · simp [pyDictHas, pyDictGet, find?_key_pos p d k h, h]
    · rw [pyDictHas, pyDictGet] at *
      simp only [List.any_cons, find?_key_neg p d k h]
      simpa [h] using ih

theorem pyDictGet_append {κ α : Type} [DecidableEq κ]
    (d e : List (κ × α)) (k : κ) :
    pyDictGet (d ++ e) k =
      match pyDictGet d k with
      | some v => some v
      | none => pyDictGet e k := by
  induction d with
  | nil => simp [pyDictGet]
  | cons p d ih =>
    by_cases h : p.1 = k
    · simp [pyDictGet, find?_key_pos _ _ k h]
    · rw [List.cons_append, pyDictGet, find?_key_neg _ _ k h, pyDictGet,
        find?_key_neg _ _ k h]
      exact ih

theorem pyDictGet_overwrite_self {κ α : Type} [DecidableEq κ]
    (d : List (κ × α)) (k : κ) (v : α) :
    pyDictGet (d.map (fun p => if p.1 == k then (k, v) else p)) k =
      if pyDictHas d k then some v else none := by
  induction d with
  | nil => simp [pyDictGet, pyDictHas]
  | cons p d ih =>
    by_cases hp : p.1 = k
    · rw [List.map_cons, if_pos (by simpa using hp), pyDictGet,
        find?_key_pos _ _ k rfl]
      simp [pyDictHas, hp]
    · rw [List.map_cons, if_neg (by simpa using hp), pyDictGet,
        find?_key_neg _ _ k hp]
      rw [pyDictGet] at ih
      rw [ih]
      have hb : (p.1 == k) = false := by simpa using hp
      simp only [pyDictHas, List.any_cons, hb, Bool.false_or]

theorem pyDictGet_overwrite_ne {κ α : Type} [DecidableEq κ]
    (d : List (κ × α)) (k k' : κ) (v : α) (hne : k' ≠ k) :
    pyDictGet (d.map (fun p => if p.1 == k then (k, v) else p)) k' =
      pyDictGet d k' := by
  induction d with
  | nil => simp [pyDictGet]
  | cons p d ih =>
    by_cases hp : p.1 = k
    · rw [List.map_cons, if_pos (by simpa using hp), pyDictGet,
        find?_key_neg _ _ k' (fun hc => hne hc.symm), pyDictGet,
        find?_key_neg _ _ k' (fun hc => hne ((hp ▸ hc).symm))]
      exact ih
    · rw [List.map_cons, if_neg (by simpa using hp)]
      by_cases hp' : p.1 = k'
      · rw [pyDictGet, find?_key_pos _ _ k' hp', pyDictGet, find?_key_pos _ _ k' hp']
      · rw [pyDictGet, find?_key_neg _ _ k' hp', pyDictGet, find?_key_neg _ _ k' hp']
        exact ih

theorem pyDictGet_set_self {κ α : Type} [DecidableEq κ]
    (d : List (κ × α)) (k : κ) (v : α) :
    pyDictGet (pyDictSet d k v) k = some v := by
  rw [pyDictSet]
  by_cases h : pyDictHas d k = true
  · rw [if_pos h, pyDictGet_overwrite_self, if_pos h]
  · rw [if_neg h, pyDictGet_append,
      (pyDictHas_false_iff d k).mp (by simpa using h)]
    simp [pyDictGet, find?_key_pos]

theorem pyDictGet_set_ne {κ α : Type} [DecidableEq κ]
    (d : List (κ × α)) (k k' : κ) (v : α) (hne : k' ≠ k) :
    pyDictGet (pyDictSet d k v) k' = pyDictGet d k' := by
  rw [pyDictSet]
  by_cases h : pyDictHas d k = true
  · rw [if_pos h, pyDictGet_overwrite_ne _ _ _ _ hne]
  · rw [if_neg h, pyDictGet_append]
    cases hg : pyDictGet d k' with
    | some v' => rfl
    | none =>
      rw [pyDictGet, find?_key_neg _ _ k' (fun hc => hne hc.symm)]
      simp [pyDictGet]

theorem pyDictGet_del_self {κ α : Type} [DecidableEq κ]
    (d : List (κ × α)) (k : κ) :
    pyDictGet (pyDictDel d k) k = none := by
  induction d with
  | nil => simp [pyDictGet, pyDictDel]
  | cons p d ih =>
    rw [pyDictDel, List.filter_cons]
    by_cases hp : p.1 = k
    · have hb : (p.1 != k) = false := by simp [hp]
      rw [hb, if_neg (by simp)]
      simpa [pyDictDel] using ih
    · have hb : (p.1 != k) = true := by simp [hp]
      rw [hb, if_pos rfl, pyDictGet, find?_key_neg _ _ k hp]
      simpa [pyDictDel, pyDictGet] using ih

/-! ## Session registry claims -/

/-- C3: for every agent_id with an active session, close succeeds exactly
once — a successful `close_task` removes the session from the registry, a
second `close_task` for the same agent_id fails with `SessionNotFound`, and
`execute_action` on an agent_id with no active session also fails with
`SessionNotFound`. -/
theorem close_task_exactly_once :
    (∀ (reg : Registry) (agent_id : String) (s : Session),
      pyDictGet reg agent_id = some s →
      ∀ (videos videos' : List String) (obs : Nat),
      ∃ reg' res, close_task reg agent_id videos = Except.ok (reg', res) ∧
        pyDictGet reg' agent_id = none ∧
        close_task reg' agent_id videos' =
          Except.error ServerError.SessionNotFound ∧
        execute_action reg' agent_id obs =
          Except.error ServerError.SessionNotFound) ∧
    (∀ (reg : Registry) (agent_id : String), pyDictGet reg agent_id = none →
      ∀ obs : Nat,
      execute_action reg agent_id obs =
        Except.error ServerError.SessionNotFound) := by
  have hstep : ∀ (reg : Registry) (agent_id : String),
      pyDictGet reg agent_id = none → ∀ obs : Nat,
      execute_action reg agent_id obs =
        Except.error ServerError.SessionNotFound := by
    intro reg agent_id hnone obs
    have hh : pyDictHas reg agent_id = false :=
      (pyDictHas_false_iff reg agent_id).mpr hnone
    rw [execute_action, hh]
    simp
  refine ⟨?_, hstep⟩
  intro reg agent_id s hs videos videos' obs
  refine ⟨pyDictDel reg agent_id,
    { agent_id, video_files := videos, record_dir := s.record_dir },
    ?_, ?_, ?_, ?_⟩
  · rw [close_task, hs]
  · exact pyDictGet_del_self reg agent_id
  · rw [close_task, pyDictGet_del_self]
  · exact hstep _ _ (pyDictGet_del_self reg agent_id) obs

/-- C3 witness: a one-session registry closed at its key; the second close
and a step on the closed key report `SessionNotFound`. -/
theorem close_task_exactly_once_witness :
    ∃ reg' res,
      close_task [("w", ⟨5, "collect_wood", "simple", "rd", 0, none⟩)] "w"
          ["v.mp4"] = Except.ok (reg', res) ∧
      pyDictGet reg' "w" = none ∧
      close_task reg' "w" [] = Except.error ServerError.SessionNotFound ∧
      execute_action reg' "w" 0 = Except.error ServerError.SessionNotFound :=
  close_task_exactly_once.1 [("w", ⟨5, "collect_wood", "simple", "rd", 0, none⟩)]
    "w" ⟨5, "collect_wood", "simple", "rd", 0, none⟩ (by decide) ["v.mp4"] [] 0

/-- C4 counterexample: `init_task` on an agent_id that already has an active
session does not fail with `AlreadyActive`; it succeeds, and the session it
stores replaces (differs from) the one that was active. -/
theorem init_task_overwrite_counterexample :
    (init_task [("a", ⟨0, "t1", "simple", "rd1", 3, none⟩)] (some "a")
        "t2" "hard" 7 none).toOption =
      some ([("a", ⟨7, "t2", "hard", "/tmp/mcu_recordings/a", 0, none⟩)],
        ⟨"a", "t2", none, false⟩) ∧
    (⟨7, "t2", "hard", "/tmp/mcu_recordings/a", 0, none⟩ : Session) ≠
      ⟨0, "t1", "simple", "rd1", 3, none⟩ := by
  exact ⟨by decide, by decide⟩

/-- C4 (amended): a second `init_task` for an agent_id that already has an
active session succeeds and supersedes it — the freshly built session
replaces the stored one, and sessions of all other agent_ids are
untouched. -/
theorem init_task_supersedes (reg : Registry) (agent_id : String)
    (old : Session) (hs : pyDictGet reg agent_id = some old)
    (task_name difficulty : String) (sim : Nat) (task_id : Option String) :
    ∃ reg' res,
      init_task reg (some agent_id) task_name difficulty sim task_id =
        Except.ok (reg', res) ∧
      pyDictGet reg' agent_id =
        some ⟨sim, task_name, difficulty, "/tmp/mcu_recordings/" ++ agent_id,
          0, task_id⟩ ∧
      ∀ k, k ≠ agent_id → pyDictGet reg' k = pyDictGet reg k := by
  refine ⟨_, _, rfl, ?_, ?_⟩
  · exact pyDictGet_set_self reg agent_id _
  · intro k hk
    exact pyDictGet_set_ne reg agent_id k _ hk

/-- C4 witness: superseding the session stored at key `"a"` while key `"b"`
keeps its session. -/
theorem init_task_supersedes_witness :
    ∃ reg' res,
      init_task [("a", ⟨0, "t1", "simple", "rd1", 3, none⟩),
                 ("b", ⟨1, "t3", "simple", "rd3", 0, none⟩)] (some "a")
          "t2" "hard" 7 none =
        Except.ok (reg', res) ∧
      pyDictGet reg' "a" =
        some ⟨7, "t2", "hard", "/tmp/mcu_recordings/a", 0, none⟩ ∧
      ∀ k, k ≠ "a" → pyDictGet reg' k =
        pyDictGet [("a", ⟨0, "t1", "simple", "rd1", 3, none⟩),
                   ("b", ⟨1, "t3", "simple", "rd3", 0, none⟩)] k :=
  init_task_supersedes _ "a" ⟨0, "t1", "simple", "rd1", 3, none⟩ (by decide)
    "t2" "hard" 7 none

/-! ## Task generation claims -/

/-- C5: a completion-service response that lacks the literal command-list
marker `'- custom_init_commands:\n  -'` makes task generation fail with
`GenerationParseError`, return no task config, and leave the process-wide
generated-task store unchanged. -/
theorem generate_task_marker_missing (store : TaskStore) (new_id : String)
    (task_name ans difficulty task_type : List Char)
    (h : containsSub cmdMarker ans = false) :
    generate_task store new_id task_name ans difficulty task_type =
      (store, Except.error GenError.GenerationParseError) := by
  have hfind : findSub cmdMarker ans = none := by
    cases hf : findSub cmdMarker ans with
    | none => rfl
    | some i => rw [containsSub, hf] at h; simp at h
  rw [generate_task, generate_task_config, hfind]

/-- C5 witness: a markerless response leaves a nonempty store untouched and
produces the parse error. -/
theorem generate_task_marker_missing_witness :
    generate_task [("id0", ⟨[], [], [], [], true, [], []⟩)] "id1"
        "collect wood".toList "no marker here".toList
        "simple".toList "atomic".toList =
      ([("id0", ⟨[], [], [], [], true, [], []⟩)],
        Except.error GenError.GenerationParseError) :=
  generate_task_marker_missing _ "id1" _ _ _ _ (by decide)

/-! ## Compositional task-name claims -/

theorem pyChoice_two (r : Nat) :
    pyChoice [andConn, orConn] r = andConn ∨
      pyChoice [andConn, orConn] r = orConn := by
  rw [pyChoice]
  rcases Nat.mod_two_eq_zero_or_one r with h | h <;> simp [h]

/-- C7: with exactly 2 task names the composed name is `A or B` — the
2-input connector is drawn from the singleton `[' or ']`, so it is always
`' or '`; with exactly 3 names the result is `A c1 B c2 C` where `c1` and
`c2` are each independently drawn from `\x7b' and ', ' or '\x7d`. -/
theorem compositional_task_name_connectors :
    (∀ (a b : List Char) (r1 r2 : Nat),
      process_compositional_task_list [a, b] r1 r2 = some (a ++ orConn ++ b)) ∧
    (∀ (a b c : List Char) (r1 r2 : Nat),
      ∃ c1 c2, (c1 = andConn ∨ c1 = orConn) ∧ (c2 = andConn ∨ c2 = orConn) ∧
        process_compositional_task_list [a, b, c] r1 r2 =
          some (a ++ c1 ++ b ++ c2 ++ c)) := by
  constructor
  · intro a b r1 r2
    rw [process_compositional_task_list]
    simp [pyChoice, Nat.mod_one]
  · intro a b c r1 r2
    refine ⟨pyChoice [andConn, orConn] r1, pyChoice [andConn, orConn] r2,
      pyChoice_two r1, pyChoice_two r2, ?_⟩
    rw [process_compositional_task_list]
    simp

/-! ## Readiness polling claims -/

theorem waitFrom_true_iff (outcome : Nat → Bool) :
    ∀ (fuel i : Nat),
      (waitFrom outcome fuel i).1 = true ↔
        ∃ j, j < fuel ∧ outcome (i + j) = true := by
  intro fuel
  induction fuel with
  | zero => intro i; simp [waitFrom]
  | succ n ih =>
    intro i
    rw [waitFrom]
    cases h : outcome i with
    | true =>
      rw [if_pos rfl]
      exact ⟨fun _ => ⟨0, Nat.succ_pos n, by simpa using h⟩, fun _ => rfl⟩
    | false =>
      rw [if_neg Bool.false_ne_true, ih (i + 1)]
      constructor
      · rintro ⟨j, hj, hout⟩
        exact ⟨j + 1, by omega,
          by simpa [Nat.add_assoc, Nat.add_comm 1 j] using hout⟩
      · rintro ⟨j, hj, hout⟩
        obtain ⟨j', rfl⟩ : ∃ j', j = j' + 1 := by
          rcases j with _ | j'
          · rw [Nat.add_zero] at hout
            rw [h] at hout
            exact absurd hout Bool.false_ne_true
          · exact ⟨j', rfl⟩
        exact ⟨j', by omega,
          by simpa [Nat.add_assoc, Nat.add_comm 1 j'] using hout⟩

theorem waitFrom_attempts_le (outcome : Nat → Bool) :
    ∀ (fuel i : Nat), (waitFrom outcome fuel i).2 ≤ i + fuel := by
  intro fuel
  induction fuel with
  | zero => intro i; simp [waitFrom]
  | succ n ih =>
    intro i
    rw [waitFrom]
    cases h : outcome i with
    | true => rw [if_pos rfl]; omega
    | false =>
      rw [if_neg Bool.false_ne_true]
      have := ih (i + 1)
      omega

theorem waitFrom_first_success (outcome : Nat → Bool) :
    ∀ (fuel i j : Nat), j < fuel → outcome (i + j) = true →
      (∀ d, d < j → outcome (i + d) = false) →
      waitFrom outcome fuel i = (true, i + j + 1) := by
  intro fuel
  induction fuel with
  | zero => intro i j hj; omega
  | succ n ih =>
    intro i j hj hout hmin
    rw [waitFrom]
    cases h : outcome i with
    | true =>
      have hj0 : j = 0 := by
        by_contra hne
        have hm := hmin 0 (by omega)
        rw [Nat.add_zero] at hm
        rw [hm] at h
        exact Bool.false_ne_true h
      subst hj0
      rw [if_pos rfl]
    | false =>
      have hj0 : j ≠ 0 := by
        intro hc
        subst hc
        rw [Nat.add_zero] at hout
        rw [h] at hout
        exact Bool.false_ne_true hout
      obtain ⟨j', rfl⟩ : ∃ j', j = j' + 1 := ⟨j - 1, by omega⟩
      rw [if_neg Bool.false_ne_true]
      have hrec := ih (i + 1) j' (by omega)
        (by simpa [Nat.add_assoc, Nat.add_comm 1 j'] using hout)
        (fun d hd => by
          have hm := hmin (d + 1) (by omega)
          simpa [Nat.add_assoc, Nat.add_comm 1 d] using hm)
      rw [hrec]
      congr 1
      omega

/-- C9: `wait_agent_ready(url, timeout)` makes at most `timeout` polling
attempts; it returns `True` exactly when some attempt among the first
`timeout` succeeds, stopping at the first successful attempt, so with the
first 3 polls failing and the 4th succeeding it returns `True` after 4
attempts (about 4 seconds at the 1-second polling interval), far below the
default 30-attempt ceiling; it returns `False` only when all `timeout`
attempts fail. -/
theorem wait_agent_ready_spec :
    (∀ (outcome : Nat → Bool) (timeout : Nat),
      (wait_agent_ready outcome timeout).1 = true ↔
        ∃ i, i < timeout ∧ outcome i = true) ∧
    (∀ (outcome : Nat → Bool) (timeout : Nat),
      (wait_agent_ready outcome timeout).2 ≤ timeout) ∧
    (∀ (outcome : Nat → Bool) (timeout j : Nat), j < timeout →
      outcome j = true → (∀ i, i < j → outcome i = false) →
      wait_agent_ready outcome timeout = (true, j + 1)) ∧
    (∀ outcome : Nat → Bool, (∀ i, i < 3 → outcome i = false) →
      outcome 3 = true → wait_agent_ready outcome 30 = (true, 4)) := by
  have h1 : ∀ (outcome : Nat → Bool) (timeout : Nat),
      (wait_agent_ready outcome timeout).1 = true ↔
        ∃ i, i < timeout ∧ outcome i = true := by
    intro outcome timeout
    rw [wait_agent_ready, waitFrom_true_iff]
    simp
  have h3 : ∀ (outcome : Nat → Bool) (timeout j : Nat), j < timeout →
      outcome j = true → (∀ i, i < j → outcome i = false) →
      wait_agent_ready outcome timeout = (true, j + 1) := by
    intro outcome timeout j hj hout hmin
    rw [wait_agent_ready]
    have hw := waitFrom_first_success outcome timeout 0 j hj
      (by simpa using hout) (fun d hd => by simpa using hmin d hd)
    simpa using hw
  refine ⟨h1, ?_, h3, ?_⟩
  · intro outcome timeout
    rw [wait_agent_ready]
    simpa using waitFrom_attempts_le outcome timeout 0
  · intro outcome hfail hok
    exact h3 outcome 30 3 (by omega) hok hfail

/-- C9 witness: polls that fail on attempts 0-2 and succeed on attempt 3
give `True` after exactly 4 attempts out of the 30 allowed. -/
theorem wait_agent_ready_spec_witness :
    wait_agent_ready (fun i => decide (3 ≤ i)) 30 = (true, 4) :=
  wait_agent_ready_spec.2.2.2 (fun i => decide (3 ≤ i)) (by decide) (by decide)

/-! ## Hybrid policy claims -/

theorem mem_mark_subtask_complete (l : List (List Char)) (s : List Char) :
    s ∈ mark_subtask_complete l s := by
  rw [mark_subtask_complete]
  by_cases h : s ∈ l
  · rw [if_pos h]; exact h
  · rw [if_neg h]; simp

theorem advance_subtask_index_le (p : HybridPolicy) :
    p.current_subtask_index ≤ (advance_subtask p).current_subtask_index := by
  cases hplan : p.current_plan with
  | none => simp [advance_subtask, hplan]
  | some subs =>
    simp only [advance_subtask, hplan]
    split_ifs <;> simp <;> omega

theorem advance_subtask_plan_eq (p : HybridPolicy) :
    (advance_subtask p).current_plan = p.current_plan := by
  cases hplan : p.current_plan with
  | none => simp [advance_subtask, hplan]
  | some subs =>
    simp only [advance_subtask, hplan]
    split_ifs <;> simp [hplan]

theorem advance_subtask_index_bound (p : HybridPolicy) (subs : List (List Char))
    (hplan : p.current_plan = some subs)
    (hle : p.current_subtask_index ≤ subs.length) :
    (advance_subtask p).current_subtask_index ≤ subs.length := by
  simp only [advance_subtask, hplan]
  split_ifs <;> (try simp) <;> omega

theorem advance_subtask_fires (p : HybridPolicy) (subs : List (List Char))
    (hplan : p.current_plan = some subs)
    (hlt : p.current_subtask_index < subs.length) :
    (advance_subtask p).current_subtask_index = p.current_subtask_index + 1 ∧
    (advance_subtask p).steps_in_subtask = 0 ∧
    (0 < p.current_subtask_index →
      subs.getD (p.current_subtask_index - 1) [] ∈
        (advance_subtask p).completed_subtasks) := by
  simp only [advance_subtask, hplan]
  rw [if_neg (by omega)]
  by_cases h0 : 0 < p.current_subtask_index
  · rw [if_pos h0]
    rw [if_pos (by simpa using hlt)]
    refine ⟨by simp, by simp, fun _ => ?_⟩
    simpa using mem_mark_subtask_complete p.completed_subtasks
      (subs.getD (p.current_subtask_index - 1) [])
  · rw [if_neg h0]
    rw [if_pos (by simpa using hlt)]
    exact ⟨by simp, by simp, fun hc => absurd hc h0⟩

/-- C8: within one plan, `current_subtask_index` never decreases across
`get_action` steps and stays bounded by the number of subtasks of the plan;
once `steps_in_subtask` has reached `max_steps_per_subtask` (and a subtask
remains), `_advance_subtask` fires — it marks the previous subtask complete
(when one exists), increments `current_subtask_index` and resets
`steps_in_subtask` to 0, and the surrounding `get_action` step indeed lands
on the incremented index. -/
theorem hybrid_policy_plan_state :
    (∀ p : HybridPolicy,
      p.current_subtask_index ≤ (get_action_step p).current_subtask_index) ∧
    (∀ (p : HybridPolicy) (subs : List (List Char)),
      p.current_plan = some subs → p.current_subtask_index ≤ subs.length →
      (get_action_step p).current_plan = some subs ∧
      (get_action_step p).current_subtask_index ≤ subs.length) ∧
    (∀ (p : HybridPolicy) (subs : List (List Char)),
      p.current_plan = some subs →
      p.max_steps_per_subtask ≤ p.steps_in_subtask →
      p.current_subtask_index < subs.length →
      (advance_subtask p).current_subtask_index = p.current_subtask_index + 1 ∧
      (advance_subtask p).steps_in_subtask = 0 ∧
      (0 < p.current_subtask_index →
        subs.getD (p.current_subtask_index - 1) [] ∈
          (advance_subtask p).completed_subtasks) ∧
      (get_action_step p).current_subtask_index =
        p.current_subtask_index + 1) := by
  have hstep_index : ∀ p : HybridPolicy,
      (get_action_step p).current_subtask_index =
        (if p.current_plan.isNone || should_move_to_next_subtask p then
          advance_subtask p else p).current_subtask_index := by
    intro p
    rw [get_action_step]
  have hstep_plan : ∀ p : HybridPolicy,
      (get_action_step p).current_plan =
        (if p.current_plan.isNone || should_move_to_next_subtask p then
          advance_subtask p else p).current_plan := by
    intro p
    rw [get_action_step]
  refine ⟨?_, ?_, ?_⟩
  · intro p
    rw [hstep_index p]
    by_cases h : (p.current_plan.isNone || should_move_to_next_subtask p) = true
    · rw [if_pos h]; exact advance_subtask_index_le p
    · rw [if_neg h]
  · intro p subs hplan hle
    rw [hstep_index p, hstep_plan p]
    by_cases h : (p.current_plan.isNone || should_move_to_next_subtask p) = true
    · rw [if_pos h]
      refine ⟨?_, advance_subtask_index_bound p subs hplan hle⟩
      rw [advance_subtask_plan_eq p, hplan]
    · rw [if_neg h]
      exact ⟨hplan, hle⟩
  · intro p subs hplan hsteps hlt
    have hfire := advance_subtask_fires p subs hplan hlt
    have hsm : should_move_to_next_subtask p = true := by
      rw [should_move_to_next_subtask, hplan]
      simpa using hsteps
    refine ⟨hfire.1, hfire.2.1, hfire.2.2, ?_⟩
    rw [hstep_index p, hsm, Bool.or_true, if_pos rfl]
    exact hfire.1

/-- C8 witness: a two-subtask plan at index 1 with the step budget exhausted
advances to index 2, resets the step counter, and marks subtask `"a"`
complete. -/
theorem hybrid_policy_plan_state_witness :
    (advance_subtask ⟨some [['a'], ['b']], 1, 500, 500, [], some ['a']⟩).current_subtask_index = 2 ∧
    (advance_subtask ⟨some [['a'], ['b']], 1, 500, 500, [], some ['a']⟩).steps_in_subtask = 0 ∧
    (0 < (1 : Nat) →
      [['a'], ['b']].getD 0 [] ∈
        (advance_subtask ⟨some [['a'], ['b']], 1, 500, 500, [], some ['a']⟩).completed_subtasks) ∧
    (get_action_step ⟨some [['a'], ['b']], 1, 500, 500, [], some ['a']⟩).current_subtask_index = 2 :=
  hybrid_policy_plan_state.2.2 ⟨some [['a'], ['b']], 1, 500, 500, [], some ['a']⟩
    [['a'], ['b']] rfl (by decide) (by decide)

/-! ## Score extraction claims -/

theorem scores_metric_fold_get (line : List Char) (metrics : List (List Char))
    (scores : List (List Char × Nat)) (metric : List Char)
    (h : scoreLineValue metric line = none) :
    pyDictGet (metrics.foldl (fun sc m =>
      match scoreLineValue m line with
      | some n => pyDictSet sc m n
      | none => sc) scores) metric = pyDictGet scores metric := by
  induction metrics generalizing scores with
  | nil => rfl
  | cons m ms ih =>
    rw [List.foldl_cons]
    cases hm : scoreLineValue m line with
    | none =>
      simp only [hm]
      exact ih scores
    | some n =>
      have hne : metric ≠ m := by
        intro hc
        subst hc
        rw [h] at hm
        exact Option.noConfusion hm
      simp only [hm]
      rw [ih (pyDictSet scores m n), pyDictGet_set_ne _ _ _ _ hne]

theorem scores_line_fold_get (lines : List (List Char))
    (scores : List (List Char × Nat)) (metric : List Char)
    (h : ∀ line ∈ lines, scoreLineValue metric line = none) :
    pyDictGet (lines.foldl (fun sc line =>
      metricNames.foldl (fun sc m =>
        match scoreLineValue m line with
        | some n => pyDictSet sc m n
        | none => sc) sc) scores) metric = pyDictGet scores metric := by
  induction lines generalizing scores with
  | nil => rfl
  | cons line lines ih =>
    rw [List.foldl_cons,
      ih _ (fun l hl => h l (List.mem_cons_of_mem line hl)),
      scores_metric_fold_get line metricNames scores metric
        (h line (List.mem_cons_self line lines))]

/-- C6 (amended): the A2A server's `evaluate_video` extractor behaves as the
claim states — it scans line by line for a `'metric: value'` or
`'- metric: value'` occurrence, records the first integer token of the
trailing value (so the single line `"- Task Progress: 7/10"` yields exactly
\x7b"Task Progress": 7\x7d), and a metric with no parsable matching line is
absent from the result, never an error; the green agent's
`evaluate_video_with_vlm` extractor, by contrast, only records a line whose
entire trailing value parses as a bare integer (e.g. `"- Task Progress: 7"`
yields \x7b"Task Progress": 7\x7d there). -/
theorem evaluate_video_scores_spec :
    (evaluate_video_scores "- Task Progress: 7/10".toList =
      [("Task Progress".toList, 7)]) ∧
    (∀ (text metric : List Char), metric ∈ metricNames →
      (∀ line ∈ splitOnChar '\n' text, scoreLineValue metric line = none) →
      pyDictGet (evaluate_video_scores text) metric = none) ∧
    (evaluate_video_with_vlm_scores "- Task Progress: 7".toList =
      [("Task Progress".toList, 7)]) := by
  refine ⟨by decide, ?_, by decide⟩
  intro text metric _ h
  rw [evaluate_video_scores, scores_line_fold_get _ _ _ h]
  rfl

/-- C6 witness: a text with no score lines leaves every metric, here
`"Task Progress"`, absent from the extraction result. -/
theorem evaluate_video_scores_spec_witness :
    pyDictGet (evaluate_video_scores "no scores in here".toList)
      "Task Progress".toList = none :=
  evaluate_video_scores_spec.2.1 "no scores in here".toList
    "Task Progress".toList (by decide) (by decide)

/-- C6 counterexample: the green agent's `evaluate_video_with_vlm` extractor
(cited by the claim) does not record `"Task Progress": 7` from
`"- Task Progress: 7/10"`: `int("7/10")` fails, so the result is empty. -/
theorem vlm_scores_counterexample :
    evaluate_video_with_vlm_scores "- Task Progress: 7/10".toList = [] ∧
    pyDictGet (evaluate_video_with_vlm_scores "- Task Progress: 7/10".toList)
      "Task Progress".toList ≠ some 7 :=
  ⟨by decide, by decide⟩

/-! ## Codec lemmas: `findSub` and the scanner

The scanner is proved correct on the generative grammar of §3: lemmas below
walk `scanAux` over a gap, then over one rendered pair, consuming exactly the
pair and leaving the tail. -/

theorem isPrefixOf_append_self (a b : List Char) :
    List.isPrefixOf a (a ++ b) = true := by
  induction a with
  | nil => simp
  | cons c a ih => simpa [List.isPrefixOf] using ih

theorem length_le_of_isPrefixOf (p : List Char) :
    ∀ l : List Char, List.isPrefixOf p l = true → p.length ≤ l.length := by
  induction p with
  | nil => intro l _; simp
  | cons c p ih =>
    intro l h
    cases l with
    | nil => simp [List.isPrefixOf] at h
    | cons d l =>
      simp only [List.isPrefixOf, Bool.and_eq_true] at h
      simpa using ih l h.2

theorem get?_eq_of_isPrefixOf (p : List Char) :
    ∀ (l : List Char) (i : Nat), List.isPrefixOf p l = true → i < p.length →
      p.get? i = l.get? i := by
  induction p with
  | nil => intro l i _ hi; simp at hi
  | cons c p ih =>
    intro l i h hi
    cases l with
    | nil => simp [List.isPrefixOf] at h
    | cons d l =>
      simp only [List.isPrefixOf, Bool.and_eq_true, beq_iff_eq] at h
      cases i with
      | zero => simp [h.1]
      | succ i => simpa using ih l i h.2 (by simpa using hi)

theorem isPrefixOf_of_append (p x y : List Char) :
    List.isPrefixOf p (x ++ y) = true → p.length ≤ x.length →
      List.isPrefixOf p x = true := by
  induction p generalizing x with
  | nil => intro _ _; simp
  | cons c p ih =>
    intro h hl
    cases x with
    | nil => simp at hl
    | cons d x =>
      simp only [List.cons_append, List.isPrefixOf, Bool.and_eq_true] at h ⊢
      exact ⟨h.1, ih x h.2 (by simpa using hl)⟩

theorem findSub_none_cons (pat : List Char) (c : Char) (l : List Char)
    (h : findSub pat (c :: l) = none) : findSub pat l = none := by
  rw [findSub] at h
  by_cases hp : List.isPrefixOf pat (c :: l) = true
  · rw [if_pos hp] at h
    exact Option.noConfusion h
  · rw [if_neg hp] at h
    exact Option.map_eq_none'.mp h

theorem findSub_of_isPrefixOf (pat l : List Char)
    (hp : List.isPrefixOf pat l = true) : findSub pat l = some 0 := by
  cases l with
  | nil => rw [findSub, if_pos hp]
  | cons c l => rw [findSub, if_pos hp]

theorem findSub_append_pat (pat : List Char) (h0 : Char)
    (hhead : pat.get? 0 = some h0) (htail : h0 ∉ pat.tail) :
    ∀ (payload rest : List Char), findSub pat payload = none →
      findSub pat (payload ++ (pat ++ rest)) = some payload.length := by
  have hpat_ne : pat ≠ [] := by
    intro hc
    rw [hc] at hhead
    exact Option.noConfusion hhead
  intro payload
  induction payload with
  | nil =>
    intro rest _
    simpa using findSub_of_isPrefixOf pat (pat ++ rest)
      (isPrefixOf_append_self pat rest)
  | cons c payload ih =>
    intro rest hnone
    have hnone' : findSub pat payload = none := findSub_none_cons pat c payload hnone
    have hpre : ¬List.isPrefixOf pat ((c :: payload) ++ (pat ++ rest)) = true := by
      intro hpre
      by_cases hle : pat.length ≤ (c :: payload).length
      · have hfix := isPrefixOf_of_append pat (c :: payload) (pat ++ rest) hpre hle
        rw [findSub_of_isPrefixOf pat (c :: payload) hfix] at hnone
        exact Option.noConfusion hnone
      · have hm : (c :: payload).length < pat.length := by omega
        have h1 : pat.get? (c :: payload).length =
            ((c :: payload) ++ (pat ++ rest)).get? (c :: payload).length :=
          get?_eq_of_isPrefixOf pat _ _ hpre hm
        rw [List.get?_append_right (Nat.le_refl _)] at h1
        rw [Nat.sub_self] at h1
        have h2 : (pat ++ rest).get? 0 = some h0 := by
          cases pat with
          | nil => exact absurd rfl hpat_ne
          | cons p0 pt => simpa using hhead
        rw [h2] at h1
        have hmem : h0 ∈ pat.tail := by
          cases pat with
          | nil => exact absurd rfl hpat_ne
          | cons p0 pt =>
            have : (p0 :: pt).get? (c :: payload).length = pt.get? payload.length := by
              simp
            rw [this] at h1
            exact List.get?_mem h1
        exact htail hmem
    rw [List.cons_append] at hpre
    rw [List.cons_append, findSub, if_neg hpre]
    have := ih rest hnone'
    rw [this]
    simp

theorem scanAux_congr (outer : Unit) :
    ∀ (f1 f2 : Nat) (l : List Char), l.length ≤ f1 → l.length ≤ f2 →
      scanAux f1 l = scanAux f2 l := by
  intro f1
  induction f1 with
  | zero =>
    intro f2 l h1 _
    have : l = [] := List.length_eq_zero.mp (by omega)
    subst this
    cases f2 <;> rfl
  | succ n ih =>
    intro f2 l h1 h2
    cases l with
    | nil => cases f2 <;> rfl
    | cons c rest =>
      cases f2 with
      | zero => simp at h2
      | succ m =>
        cases htm : tagMatchAt (c :: rest) with
        | none =>
          have hr1 : rest.length ≤ n := by simp at h1; omega
          have hr2 : rest.length ≤ m := by simp at h2; omega
          simp only [scanAux, htm]
          exact ih m rest hr1 hr2
        | some r =>
          obtain ⟨w, content, used⟩ := r
          simp only [scanAux, htm]
          have hd : (rest.drop used).length ≤ rest.length := by
            rw [List.length_drop]; omega
          have hr1 : rest.length ≤ n := by simp at h1; omega
          have hr2 : rest.length ≤ m := by simp at h2; omega
          rw [ih m (rest.drop used) (by omega) (by omega)]

theorem scanAux_eq_scanTags (fuel : Nat) (l : List Char) (h : l.length ≤ fuel) :
    scanAux fuel l = scanTags l :=
  scanAux_congr () fuel l.length l h (Nat.le_refl _)

theorem tagMatchAt_not_open (c : Char) (l : List Char) (h : ¬c = '<') :
    tagMatchAt (c :: l) = none := by
  rw [tagMatchAt.eq_def]
  split
  · next rest heq =>
    rw [List.cons.injEq] at heq
    exact absurd heq.1 h
  · rfl

theorem scanTags_cons_none (c : Char) (l : List Char)
    (h : tagMatchAt (c :: l) = none) : scanTags (c :: l) = scanTags l := by
  show scanAux (c :: l).length (c :: l) = scanTags l
  rw [List.length_cons]
  simp only [scanAux, h]
  rfl

theorem scanTags_gap (g : List Char) (t : List Char) (hg : '<' ∉ g) :
    scanTags (g ++ t) = scanTags t := by
  induction g with
  | nil => rfl
  | cons c g ih =>
    have hc : ¬c = '<' := fun hc => hg (by rw [hc]; exact List.mem_cons_self _ _)
    rw [List.cons_append,
      scanTags_cons_none c (g ++ t) (tagMatchAt_not_open c (g ++ t) hc)]
    exact ih (fun hm => hg (List.mem_cons_of_mem c hm))

theorem takeWhile_word (n : List Char) (x : Char) (xs : List Char)
    (hw : ∀ c ∈ n, isWordChar c = true) (hx : isWordChar x = false) :
    (n ++ x :: xs).takeWhile isWordChar = n ∧
    (n ++ x :: xs).dropWhile isWordChar = x :: xs := by
  induction n with
  | nil => simp [List.takeWhile_cons, List.dropWhile_cons, hx]
  | cons c n ih =>
    have hc : isWordChar c = true := hw c (List.mem_cons_self c n)
    have ih' := ih (fun d hd => hw d (List.mem_cons_of_mem c hd))
    simp [List.takeWhile_cons, List.dropWhile_cons, hc, ih'.1, ih'.2]

theorem not_open_mem_closer_tail (name : List Char)
    (hw : ∀ c ∈ name, isWordChar c = true) : '<' ∉ (closerOf name).tail := by
  intro hmem
  rw [closerOf] at hmem
  simp at hmem
  exact absurd (hw _ hmem) (by decide)

theorem tagMatchAt_render (name payload tail : List Char)
    (hn : name ≠ []) (hw : ∀ c ∈ name, isWordChar c = true)
    (hp : findSub (closerOf name) payload = none) :
    tagMatchAt ('<' :: (name ++ ('>' :: (payload ++ (closerOf name ++ tail))))) =
      some (name, payload,
        name.length + 1 + payload.length + (closerOf name).length) := by
  have htw := takeWhile_word name '>' (payload ++ (closerOf name ++ tail)) hw
    (by decide)
  have hfind : findSub (closerOf name)
      (payload ++ (closerOf name ++ tail)) = some payload.length :=
    findSub_append_pat (closerOf name) '<' rfl
      (not_open_mem_closer_tail name hw) payload tail hp
  have hne : name.isEmpty = false := by
    cases name with
    | nil => exact absurd rfl hn
    | cons c l => rfl
  simp only [tagMatchAt, htw.1, htw.2, hne, Bool.false_eq_true, if_false,
    hfind, List.take_left]

theorem scanTags_cons_some (c : Char) (l : List Char)
    (w content : List Char) (used : Nat)
    (h : tagMatchAt (c :: l) = some (w, content, used)) :
    scanTags (c :: l) = (w, content) :: scanAux l.length (l.drop used) := by
  show scanAux (c :: l).length (c :: l) = _
  rw [List.length_cons]
  simp only [scanAux, h]

theorem scanTags_renderText :
    ∀ (ps : List (TagPair × List Char)) (g : List Char), '<' ∉ g →
      (∀ pg ∈ ps, pg.1.wf ∧ '<' ∉ pg.2) →
      scanTags (renderText g ps) =
        ps.map (fun pg => (pg.1.name, pg.1.payload)) := by
  intro ps
  induction ps with
  | nil =>
    intro g hg _
    rw [renderText]
    have hga := scanTags_gap g [] hg
    rw [List.append_nil] at hga
    rw [hga]
    rfl
  | cons pg ps ih =>
    intro g hg hps
    obtain ⟨p, g'⟩ := pg
    obtain ⟨⟨hn, hw, hp⟩, hg'⟩ := hps (p, g') (List.mem_cons_self _ _)
    rw [renderText, scanTags_gap g _ hg]
    have hshape : renderPair p ++ renderText g' ps =
        '<' :: (p.name ++ ('>' :: (p.payload ++
          (closerOf p.name ++ renderText g' ps)))) := by
      simp [renderPair, List.append_assoc]
    rw [hshape]
    have hm := tagMatchAt_render p.name p.payload (renderText g' ps) hn hw hp
    rw [scanTags_cons_some _ _ _ _ _ hm]
    have hdrop : (p.name ++ ('>' :: (p.payload ++
        (closerOf p.name ++ renderText g' ps)))).drop
        (p.name.length + 1 + p.payload.length + (closerOf p.name).length) =
        renderText g' ps := by
      rw [show p.name.length + 1 + p.payload.length + (closerOf p.name).length =
        p.name.length + (1 + (p.payload.length + (closerOf p.name).length))
        from by omega]
      rw [List.drop_append]
      rw [show 1 + (p.payload.length + (closerOf p.name).length) =
        (p.payload.length + (closerOf p.name).length) + 1 from by omega]
      rw [List.drop_succ_cons]
      rw [show p.payload.length + (closerOf p.name).length =
        p.payload.length + ((closerOf p.name).length + 0) from by omega]
      rw [List.drop_append, List.drop_append, List.drop_zero]
    rw [hdrop]
    have hlen : (renderText g' ps).length ≤
        (p.name ++ ('>' :: (p.payload ++
          (closerOf p.name ++ renderText g' ps)))).length := by
      simp [List.length_append]
      omega
    rw [scanAux_eq_scanTags _ _ hlen]
    rw [ih g' hg' (fun q hq => hps q (List.mem_cons_of_mem _ hq))]
    rfl

/-! ## Codec lemmas: folding scan matches into the dict -/

theorem pyDictGet_scan_fold (ms : List (List Char × List Char)) :
    ∀ (d : List (List Char × List Char)) (k : List Char),
      pyDictGet (ms.foldl (fun d m => pyDictSet d m.1 (pyStrip m.2)) d) k =
        match (ms.filter (fun m => m.1 == k)).getLast? with
        | some m => some (pyStrip m.2)
        | none => pyDictGet d k := by
  induction ms with
  | nil => intro d k; rfl
  | cons m ms ih =>
    intro d k
    rw [List.foldl_cons]
    by_cases hk : m.1 = k
    · subst hk
      rw [List.filter_cons_of_pos (by simp)]
      rw [ih (pyDictSet d m.1 (pyStrip m.2)) m.1]
      cases hfil : ms.filter (fun q => q.1 == m.1) with
      | nil => simp [hfil, pyDictGet_set_self]
      | cons q qs =>
        obtain ⟨x, hx⟩ := Option.isSome_iff_exists.mp
          (List.getLast?_isSome.mpr (by simp : (q :: qs) ≠ []))
        rw [List.getLast?_cons_cons, hx]
    · rw [List.filter_cons_of_neg (by simpa using hk)]
      rw [ih (pyDictSet d m.1 (pyStrip m.2)) k]
      cases hfil : (ms.filter (fun q => q.1 == k)).getLast? with
      | some q => simp [hfil]
      | none =>
        simp only [hfil]
        exact pyDictGet_set_ne d m.1 k (pyStrip m.2) (fun hc => hk hc.symm)

theorem pyDictSet_length_fresh {κ α : Type} [DecidableEq κ]
    (d : List (κ × α)) (k : κ) (v : α) (h : pyDictHas d k = false) :
    (pyDictSet d k v).length = d.length + 1 := by
  rw [pyDictSet, if_neg (by simp [h])]
  simp

theorem pyDictHas_eq_mem_keys {κ α : Type} [DecidableEq κ]
    (d : List (κ × α)) (k : κ) :
    pyDictHas d k = true ↔ k ∈ d.map Prod.fst := by
  rw [pyDictHas, List.any_eq_true]
  constructor
  · rintro ⟨p, hp, he⟩
    rw [beq_iff_eq] at he
    exact he ▸ List.mem_map_of_mem Prod.fst hp
  · intro hm
    obtain ⟨p, hp, he⟩ := List.mem_map.mp hm
    exact ⟨p, hp, by rw [beq_iff_eq, he]⟩

theorem dict_fold_length (ms : List (List Char × List Char)) :
    ∀ d : List (List Char × List Char), (ms.map Prod.fst).Nodup →
      (∀ m ∈ ms, pyDictHas d m.1 = false) →
      (ms.foldl (fun d m => pyDictSet d m.1 (pyStrip m.2)) d).length =
        d.length + ms.length := by
  induction ms with
  | nil => intro d _ _; simp
  | cons m ms ih =>
    intro d hnd hfresh
    rw [List.map_cons, List.nodup_cons] at hnd
    rw [List.foldl_cons]
    have hfresh' : ∀ m' ∈ ms, pyDictHas (pyDictSet d m.1 (pyStrip m.2)) m'.1 = false := by
      intro m' hm'
      have hne : m'.1 ≠ m.1 := by
        intro hc
        exact hnd.1 (hc ▸ List.mem_map_of_mem Prod.fst hm')
      rw [pyDictHas_false_iff, pyDictGet_set_ne d m.1 m'.1 (pyStrip m.2) hne,
        ← pyDictHas_false_iff]
      exact hfresh m' (List.mem_cons_of_mem m hm')
    rw [ih (pyDictSet d m.1 (pyStrip m.2)) hnd.2 hfresh',
      pyDictSet_length_fresh d m.1 (pyStrip m.2)
        (hfresh m (List.mem_cons_self m ms))]
    simp
    omega

theorem keys_set_of_has {κ α : Type} [DecidableEq κ]
    (d : List (κ × α)) (k : κ) (v : α) (h : pyDictHas d k = true) :
    (pyDictSet d k v).map Prod.fst = d.map Prod.fst := by
  rw [pyDictSet, if_pos h, List.map_map]
  apply List.map_congr_left
  intro p hp
  by_cases hpk : p.1 = k
  · simp [Function.comp, hpk]
  · simp [Function.comp, hpk]

theorem keys_set_of_not_has {κ α : Type} [DecidableEq κ]
    (d : List (κ × α)) (k : κ) (v : α) (h : pyDictHas d k = false) :
    (pyDictSet d k v).map Prod.fst = d.map Prod.fst ++ [k] := by
  rw [pyDictSet, if_neg (by simp [h])]
  simp

theorem keysNodup_set {κ α : Type} [DecidableEq κ]
    (d : List (κ × α)) (k : κ) (v : α) (h : (d.map Prod.fst).Nodup) :
    ((pyDictSet d k v).map Prod.fst).Nodup := by
  cases hb : pyDictHas d k with
  | true => rw [keys_set_of_has d k v hb]; exact h
  | false =>
    rw [keys_set_of_not_has d k v hb]
    have hk : k ∉ d.map Prod.fst := by
      intro hm
      rw [(pyDictHas_eq_mem_keys d k).mpr hm] at hb
      exact Bool.noConfusion hb
    rw [List.nodup_append]
    exact ⟨h, List.nodup_singleton k, by simpa using hk⟩

theorem keysNodup_fold (ms : List (List Char × List Char)) :
    ∀ d : List (List Char × List Char), (d.map Prod.fst).Nodup →
      ((ms.foldl (fun d m => pyDictSet d m.1 (pyStrip m.2)) d).map Prod.fst).Nodup := by
  induction ms with
  | nil => intro d h; exact h
  | cons m ms ih =>
    intro d h
    rw [List.foldl_cons]
    exact ih _ (keysNodup_set d m.1 (pyStrip m.2) h)

theorem dict_filter_of_get (d : List (List Char × List Char)) :
    ∀ (k v : List Char), (d.map Prod.fst).Nodup → pyDictGet d k = some v →
      d.filter (fun p => p.1 == k) = [(k, v)] := by
  induction d with
  | nil => intro k v _ hget; simp [pyDictGet] at hget
  | cons p d ih =>
    intro k v hnd hget
    rw [List.map_cons, List.nodup_cons] at hnd
    by_cases hp : p.1 = k
    · rw [List.filter_cons_of_pos (by simpa using hp)]
      have hv : p.2 = v := by
        rw [pyDictGet, find?_key_pos p d k hp] at hget
        simpa using hget
      have hnil : d.filter (fun q => q.1 == k) = [] := by
        rw [List.filter_eq_nil_iff]
        intro q hq
        simp only [beq_iff_eq]
        intro hqk
        exact hnd.1 ((hp ▸ hqk : q.1 = p.1) ▸ List.mem_map_of_mem Prod.fst hq)
      rw [hnil]
      have hpv : p = (k, v) := by
        obtain ⟨p1, p2⟩ := p
        simp only at hp hv
        rw [hp, hv]
      rw [hpv]
    · rw [List.filter_cons_of_neg (by simpa using hp)]
      rw [pyDictGet, find?_key_neg p d k hp] at hget
      exact ih k v hnd.2 hget

theorem filter_scan_unique (ps : List (TagPair × List Char)) :
    ∀ pg : TagPair × List Char, pg ∈ ps →
      (ps.map (fun pg => pg.1.name)).Nodup →
      ((ps.map fun pg => (pg.1.name, pg.1.payload)).filter
        (fun m => m.1 == pg.1.name)) = [(pg.1.name, pg.1.payload)] := by
  induction ps with
  | nil => intro pg h; simp at h
  | cons q ps ih =>
    intro pg hmem hnd
    rw [List.map_cons, List.nodup_cons] at hnd
    rw [List.map_cons]
    rcases List.mem_cons.mp hmem with rfl | hmem'
    · rw [List.filter_cons_of_pos (by simp)]
      have hnil : (ps.map fun r => (r.1.name, r.1.payload)).filter
          (fun m => m.1 == pg.1.name) = [] := by
        rw [List.filter_eq_nil_iff]
        intro m hm
        obtain ⟨r, hr, rfl⟩ := List.mem_map.mp hm
        simp only [beq_iff_eq]
        intro hc
        exact hnd.1 (hc ▸ List.mem_map_of_mem (fun pg => pg.1.name) hr)
      rw [hnil]
    · have hne : q.1.name ≠ pg.1.name := by
        intro hc
        exact hnd.1 (hc ▸ List.mem_map_of_mem (fun pg => pg.1.name) hmem')
      rw [List.filter_cons_of_neg (by simpa using hne)]
      exact ih pg hmem' hnd.2

/-! ## Message codec claims -/

/-- C2: codec round trip — for every nonempty word tag name `t` and every
payload `p` that does not contain the closing tag `</t>`, decoding
`"<t>" ++ p ++ "</t>"` yields exactly the single-entry mapping
`\x7bt: p.strip()\x7d`. -/
theorem decode_encode_round_trip (t p : List Char) (ht : t ≠ [])
    (hw : ∀ c ∈ t, isWordChar c = true)
    (hp : findSub (closerOf t) p = none) :
    parseTagsL (renderPair ⟨t, p⟩) = [(t, pyStrip p)] := by
  have hscan := scanTags_renderText [(⟨t, p⟩, [])] [] (by simp)
    (by
      intro pg hpg
      rw [List.mem_singleton] at hpg
      subst hpg
      exact ⟨⟨ht, hw, hp⟩, by simp⟩)
  have hrt : renderText [] [(⟨t, p⟩, [])] = renderPair ⟨t, p⟩ := by
    rw [renderText, renderText]
    simp
  rw [hrt] at hscan
  rw [parseTagsL, hscan]
  rfl

/-- C2 witness: `parse_tags("<t> hi </t>")` is exactly
`\x7b"t": "hi"\x7d`. -/
theorem decode_encode_round_trip_witness :
    parseTagsL (renderPair ⟨['t'], [' ', 'h', 'i', ' ']⟩) =
      [(['t'], ['h', 'i'])] := by
  rw [decode_encode_round_trip ['t'] [' ', 'h', 'i', ' ']
    (by decide) (by decide) (by decide)]
  decide

/-- C1 counterexample: the text `"<a>1</a><a>2</a>"` (built from two
well-formed top-level tag pairs, as the well-formedness check and the
2-element scan confirm) decodes to a mapping with 1 entry, not 2 — repeated
tag names collapse, so "exactly N entries" fails. -/
theorem decode_duplicate_tags_counterexample :
    (∀ pg ∈ ([(⟨['a'], ['1']⟩, []), (⟨['a'], ['2']⟩, [])] :
        List (TagPair × List Char)), pg.1.wf ∧ '<' ∉ pg.2) ∧
    (scanTags (renderText []
        [(⟨['a'], ['1']⟩, []), (⟨['a'], ['2']⟩, [])])).length = 2 ∧
    (parseTagsL (renderText []
        [(⟨['a'], ['1']⟩, []), (⟨['a'], ['2']⟩, [])])).length = 1 :=
  ⟨by decide, by decide, by decide⟩

/-- C1 (amended): for every text made of N well-formed top-level tag pairs
with pairwise-distinct tag names (separated by `<`-free gaps), `parse_tags`
returns exactly N entries — one per pair, keyed by the pair's tag name and
holding the pair's payload trimmed of leading and trailing whitespace. -/
theorem decode_distinct_names (g : List Char) (ps : List (TagPair × List Char))
    (hg : '<' ∉ g) (hps : ∀ pg ∈ ps, pg.1.wf ∧ '<' ∉ pg.2)
    (hnd : (ps.map (fun pg => pg.1.name)).Nodup) :
    (parseTagsL (renderText g ps)).length = ps.length ∧
    ∀ pg ∈ ps, pyDictGet (parseTagsL (renderText g ps)) pg.1.name =
      some (pyStrip pg.1.payload) := by
  have hscan := scanTags_renderText ps g hg hps
  constructor
  · rw [parseTagsL, hscan]
    rw [dict_fold_length (ps.map fun pg => (pg.1.name, pg.1.payload)) []
      (by simpa [Function.comp] using hnd) (fun _ _ => rfl)]
    simp
  · intro pg hpg
    rw [parseTagsL, hscan, pyDictGet_scan_fold,
      filter_scan_unique ps pg hpg hnd]
    rfl

/-- C1 witness: a text with a gap and two distinct-name pairs decodes to 2
entries, with tag `"a"`'s payload trimmed from `" 1 "` to `"1"`. -/
theorem decode_distinct_names_witness :
    (parseTagsL (renderText ['x']
      [(⟨['a'], [' ', '1', ' ']⟩, ['-']), (⟨['b'], ['2']⟩, [])])).length = 2 ∧
    pyDictGet (parseTagsL (renderText ['x']
      [(⟨['a'], [' ', '1', ' ']⟩, ['-']), (⟨['b'], ['2']⟩, [])])) ['a'] =
      some ['1'] := by
  have h := decode_distinct_names ['x']
    [(⟨['a'], [' ', '1', ' ']⟩, ['-']), (⟨['b'], ['2']⟩, [])]
    (by decide) (by decide) (by decide)
  refine ⟨h.1, ?_⟩
  rw [h.2 (⟨['a'], [' ', '1', ' ']⟩, ['-']) (by decide)]
  decide

/-- C10: repeated-tag decoding is last-wins — for every text in which the
same tag name heads more than one well-formed top-level pair (more than one
scan match), `parse_tags` returns exactly one entry for that name, holding
the trimmed payload of the last (rightmost) match. -/
theorem decode_repeated_tag_last_wins (text t : List Char)
    (hdup : 2 ≤ ((scanTags text).filter (fun m => m.1 == t)).length) :
    ((parseTagsL text).filter (fun p => p.1 == t)).length = 1 ∧
    pyDictGet (parseTagsL text) t =
      ((scanTags text).filter (fun m => m.1 == t)).getLast?.map
        (fun m => pyStrip m.2) := by
  obtain ⟨m0, hm0⟩ : ∃ m0,
      ((scanTags text).filter (fun m => m.1 == t)).getLast? = some m0 := by
    have hne : (scanTags text).filter (fun m => m.1 == t) ≠ [] := by
      intro hc
      rw [hc] at hdup
      simp at hdup
    exact Option.isSome_iff_exists.mp (List.getLast?_isSome.mpr hne)
  have hget : pyDictGet (parseTagsL text) t = some (pyStrip m0.2) := by
    rw [parseTagsL, pyDictGet_scan_fold, hm0]
  constructor
  · rw [dict_filter_of_get (parseTagsL text) t (pyStrip m0.2)
      (keysNodup_fold (scanTags text) [] (by simp)) hget]
    rfl
  · rw [hget, hm0]
    rfl

/-- C10 witness: in `"<a>1</a><a>2</a>"` the tag `"a"` appears in two
well-formed pairs; decoding keeps one entry with the last payload `"2"`. -/
theorem decode_repeated_tag_last_wins_witness :
    ((parseTagsL "<a>1</a><a>2</a>".toList).filter
      (fun p => p.1 == ['a'])).length = 1 ∧
    pyDictGet (parseTagsL "<a>1</a><a>2</a>".toList) ['a'] = some ['2'] := by
  have h := decode_repeated_tag_last_wins "<a>1</a><a>2</a>".toList ['a']
    (by decide)
  refine ⟨h.1, ?_⟩
  rw [h.2]
  decide

end MCAgent
